import Mathlib

/-!
Verification of the papyrix-flasher core: the SLIP framing codec
(internal/slip), the ESP32 bootloader packet layer (internal/protocol)
and the compressed-flash driver loop (internal/flasher).

Bytes are modelled as `Nat` (Go `byte` values are below 256; the
definitions mirror the Go code and do not depend on the bound unless a
theorem states it).  Go byte slices become `List Nat`; `nil` results
become `[]`.
-/

namespace slip

/-- SLIP special bytes, from the `slip` package constants. -/
def End : Nat := 0xC0

def Esc : Nat := 0xDB

def EscEnd : Nat := 0xDC

def EscEsc : Nat := 0xDD

/-- Per-byte escaping performed inside `Encode`'s loop: the `switch` on
each payload byte. -/
def escByte (b : Nat) : List Nat :=
  if b = End then [Esc, EscEnd]
  else if b = Esc then [Esc, EscEsc]
  else [b]

/-- `Encode` wraps data in SLIP framing: an END byte, each payload byte
escaped, and a final END byte. -/
def Encode (data : List Nat) : List Nat :=
  End :: data.flatMap escByte ++ [End]

/-- The unescaping loop of `Decode`: on `Esc` with a following byte,
translate the pair and advance two; otherwise copy the byte and advance
one. -/
def unescape : List Nat → List Nat
  | [] => []
  | [x] => [x]
  | x :: y :: rest =>
    if x = Esc then
      (if y = EscEnd then End else if y = EscEsc then Esc else y) :: unescape rest
    else
      x :: unescape (y :: rest)

/-- The start/end pointer walk of `Decode` that strips every leading and
every trailing END byte. -/
def stripEnds (frame : List Nat) : List Nat :=
  (((frame.dropWhile (· = End)).reverse.dropWhile (· = End))).reverse

/-- `Decode` extracts data from a SLIP frame: frames shorter than two
bytes give `nil`; otherwise strip the END runs at both ends and run the
unescape loop. -/
def Decode (frame : List Nat) : List Nat :=
  if frame.length < 2 then []
  else unescape (stripEnds frame)

/-- The closing scan of `ReadFrame`: starting just after the opening END
byte, walk the stream with the `inFrame` flag; an END byte closes the
frame only once a non-END byte has been seen.  Returns the bytes up to
and including the closing END, and the tail after it. -/
def scanFrame : List Nat → Bool → Option (List Nat × List Nat)
  | [], _ => none
  | b :: rest, inFrame =>
    if b = End then
      if inFrame then some ([End], rest)
      else
        match scanFrame rest false with
        | some (f, r) => some (End :: f, r)
        | none => none
    else
      match scanFrame rest true with
      | some (f, r) => some (b :: f, r)
      | none => none

/-- `ReadFrame` reads a complete SLIP frame from a byte stream: skip to
the first END byte, then scan for the closing END; on success return the
frame (both delimiters included) and the remaining bytes, otherwise no
frame and the buffer unchanged. -/
def ReadFrame : List Nat → Option (List Nat) × List Nat
  | [] => (none, [])
  | b :: rest =>
    if b = End then
      match scanFrame rest false with
      | some (f, r) => (some (End :: f), r)
      | none => (none, b :: rest)
    else
      match ReadFrame rest with
      | (some f, r) => (some f, r)
      | (none, _) => (none, b :: rest)

end slip

namespace protocol

/-- Direction byte of a request packet. -/
def DirRequest : Nat := 0x00

/-- Direction byte of a response packet. -/
def DirResponse : Nat := 0x01

/-- Flash block size (1KB), from the protocol constants. -/
def FlashBlockSize : Nat := 0x400

/-- Flash sector size (4KB), from the protocol constants. -/
def FlashSectorSize : Nat := 0x1000

/-- Little-endian recombination of two bytes (`binary.LittleEndian.Uint16`). -/
def u16le (a b : Nat) : Nat := a + 256 * b

/-- Little-endian recombination of four bytes (`binary.LittleEndian.Uint32`). -/
def u32le (a b c d : Nat) : Nat := a + 256 * b + 65536 * c + 16777216 * d

/-- Little-endian byte serialization of a 16-bit value
(`binary.LittleEndian.PutUint16`). -/
def u16leBytes (n : Nat) : List Nat := [n % 256, n / 256 % 256]

/-- Little-endian byte serialization of a 32-bit value
(`binary.LittleEndian.PutUint32`). -/
def u32leBytes (n : Nat) : List Nat :=
  [n % 256, n / 256 % 256, n / 65536 % 256, n / 16777216 % 256]

/-- An ESP32 bootloader request packet. -/
structure Request where
  command : Nat
  data : List Nat
  checksum : Nat
  deriving Repr, DecidableEq

/-- An ESP32 bootloader response packet. -/
structure Response where
  command : Nat
  data : List Nat
  value : Nat
  status : Nat
  error : Nat
  deriving Repr, DecidableEq

/-- `calculateChecksum`: an 8-bit XOR accumulator seeded with 0xEF,
XORed with every payload byte (then zero-extended to uint32 in Go,
which leaves the value unchanged). -/
def calculateChecksum (data : List Nat) : Nat :=
  data.foldl (fun acc b => acc ^^^ b) 0xEF

/-- `NewRequest` builds a request with its checksum filled in. -/
def NewRequest (cmd : Nat) (data : List Nat) : Request :=
  { command := cmd, data := data, checksum := calculateChecksum data }

/-- `Request.Encode`: direction byte, opcode, little-endian 16-bit
payload length (Go truncates `len` to `uint16`), little-endian 32-bit
checksum, then the payload. -/
def Request.encode (r : Request) : List Nat :=
  DirRequest :: r.command :: (u16leBytes r.data.length ++ u32leBytes r.checksum ++ r.data)

/-- The errors `DecodeResponse` can report, with the values Go formats
into each message. -/
inductive DecodeErr where
  | tooShort (n : Nat)
  | invalidDirection (b : Nat)
  | sizeMismatch (expected have_ : Nat)
  deriving Repr, DecidableEq

/-- `DecodeResponse` parses a response from raw (SLIP-decoded) bytes:
reject fewer than 10 bytes, a direction byte other than 0x01, or a
declared payload size exceeding the bytes present after the 8-byte
header; otherwise split off status and error from the end of the
declared payload when it has at least 2 bytes. -/
def DecodeResponse (data : List Nat) : Except DecodeErr Response :=
  match data with
  | d0 :: d1 :: d2 :: d3 :: d4 :: d5 :: d6 :: d7 :: rest =>
    if rest.length < 2 then Except.error (DecodeErr.tooShort (8 + rest.length))
    else if d0 ≠ DirResponse then Except.error (DecodeErr.invalidDirection d0)
    else
      let dataSize := u16le d2 d3
      let value := u32le d4 d5 d6 d7
      if rest.length < dataSize then
        Except.error (DecodeErr.sizeMismatch dataSize rest.length)
      else if 2 ≤ dataSize then
        Except.ok { command := d1, data := rest.take (dataSize - 2), value := value,
                    status := rest.getD (dataSize - 2) 0, error := rest.getD (dataSize - 1) 0 }
      else if 0 < dataSize then
        Except.ok { command := d1, data := rest.take dataSize, value := value,
                    status := 0, error := 0 }
      else
        Except.ok { command := d1, data := [], value := value, status := 0, error := 0 }
  | _ => Except.error (DecodeErr.tooShort data.length)

/-- `Response.IsSuccess`: a response is successful iff both status and
error are zero. -/
def Response.IsSuccess (r : Response) : Bool :=
  r.status == 0 && r.error == 0

/-- `CalculateDeflBlocks`: the number of compressed blocks,
`⌈compressedLen / blockSize⌉` via the rounding-up division idiom, cast
to uint32 by the Go source (the cast wraps, hence the `% 2 ^ 32`). -/
def CalculateDeflBlocks (compressedLen blockSize : Nat) : Nat :=
  (compressedLen + blockSize - 1) / blockSize % 2 ^ 32

/-- `FlashDeflDataData`: 16-byte header {len(block), seq, 0, 0}, all
little-endian uint32, followed by the compressed block bytes. -/
def FlashDeflDataData (compressedData : List Nat) (seq : Nat) : List Nat :=
  u32leBytes compressedData.length ++ u32leBytes seq ++ u32leBytes 0 ++ u32leBytes 0 ++
    compressedData

/-- `CalculateEraseSize` from `packet.go`: round the length up to a
sector boundary with the `(n + s - 1) / s * s` idiom (then cast to
uint32). -/
def CalculateEraseSize (dataLen : Nat) : Nat :=
  (dataLen + FlashSectorSize - 1) / FlashSectorSize * FlashSectorSize % 2 ^ 32

namespace esp32c3

/-- `CalculateEraseSize` from `esp32c3.go`: count whole sectors, add one
when a partial sector remains, multiply back (then cast to uint32). -/
def CalculateEraseSize (size : Nat) : Nat :=
  (if size % FlashSectorSize ≠ 0 then size / FlashSectorSize + 1
   else size / FlashSectorSize) * FlashSectorSize % 2 ^ 32

end esp32c3

end protocol

namespace flasher

open protocol

/-- The sequence of FLASH_DEFL_DATA payloads sent by the block loop of
`FlashImageCompressed`: for each `seq` below the block count, slice up
to `FlashBlockSize` compressed bytes starting at `seq * FlashBlockSize`
and wrap them with `FlashDeflDataData`. -/
def deflDataBlocks (compressedData : List Nat) : List (List Nat) :=
  (List.range (CalculateDeflBlocks compressedData.length FlashBlockSize)).map
    (fun seq =>
      FlashDeflDataData ((compressedData.drop (seq * FlashBlockSize)).take FlashBlockSize) seq)

/-- One pass of `readResponse`'s loop over the accumulated buffer: try
to extract a frame; when a frame arrives and its SLIP-decoded contents
have at least 10 bytes, return `DecodeResponse`'s verdict; otherwise
keep waiting (the frame, if any, is consumed). -/
def processBuffer (buffer : List Nat) :
    Option (Except DecodeErr Response) × List Nat :=
  match slip.ReadFrame buffer with
  | (some frame, remaining) =>
    let data := slip.Decode frame
    if 10 ≤ data.length then (some (DecodeResponse data), remaining)
    else (none, remaining)
  | (none, _) => (none, buffer)

end flasher


namespace slip

theorem escByte_ne_nil (b : Nat) : escByte b ≠ [] := by
  unfold escByte
  split
  · simp
  · split <;> simp

theorem end_not_mem_escByte (b : Nat) : End ∉ escByte b := by
  unfold escByte
  split
  · simp [End, Esc, EscEnd]
  · split
    · simp [End, Esc, EscEsc]
    · simp
      intro h
      simp_all

theorem end_not_mem_body (data : List Nat) : End ∉ data.flatMap escByte := by
  intro h
  rw [List.mem_flatMap] at h
  obtain ⟨b, _, hmem⟩ := h
  exact end_not_mem_escByte b hmem

theorem unescape_escByte (b : Nat) (rest : List Nat) :
    unescape (escByte b ++ rest) = b :: unescape rest := by
  by_cases hEnd : b = End
  · subst hEnd
    simp [escByte, unescape, Esc, EscEnd]
  · by_cases hEsc : b = Esc
    · subst hEsc
      simp [escByte, unescape, Esc, EscEnd, EscEsc]
    · simp only [escByte, if_neg hEnd, if_neg hEsc, List.cons_append, List.nil_append]
      cases rest with
      | nil => simp [unescape, hEsc]
      | cons y r => simp [unescape, hEsc]

theorem unescape_body (data : List Nat) :
    unescape (data.flatMap escByte) = data := by
  induction data with
  | nil => simp [unescape]
  | cons b rest ih =>
    rw [List.flatMap_cons, unescape_escByte, ih]

/-- Stripping the END runs from a well-formed frame `END body END`, where
the body holds no END byte, recovers the body. -/
theorem stripEnds_sandwich (body : List Nat) (h : End ∉ body) :
    stripEnds (End :: body ++ [End]) = body := by
  unfold stripEnds
  cases body with
  | nil => rfl
  | cons x xs =>
    have hx : x ≠ End := by
      intro hh
      exact h (hh ▸ List.mem_cons_self x xs)
    have step1 : (End :: (x :: xs) ++ [End]).dropWhile (· = End) = x :: (xs ++ [End]) := by
      simp only [List.cons_append]
      rw [List.dropWhile_cons_of_pos (by simp), List.dropWhile_cons_of_neg (by simp [hx])]
    rw [step1]
    have step2 : (x :: (xs ++ [End])).reverse = End :: (x :: xs).reverse := by simp
    rw [step2, List.dropWhile_cons_of_pos (by simp)]
    have step3 : (x :: xs).reverse.dropWhile (· = End) = (x :: xs).reverse := by
      cases hrev : (x :: xs).reverse with
      | nil => simp at hrev
      | cons z zs =>
        have hz : z ≠ End := by
          intro hh
          apply h
          have hmem : z ∈ (x :: xs).reverse := by
            rw [hrev]
            exact List.mem_cons_self z zs
          rw [List.mem_reverse] at hmem
          exact hh ▸ hmem
        rw [List.dropWhile_cons_of_neg (by simp [hz])]
    rw [step3, List.reverse_reverse]

theorem stripEnds_encode (data : List Nat) :
    stripEnds (Encode data) = data.flatMap escByte := by
  unfold Encode
  exact stripEnds_sandwich _ (end_not_mem_body data)

/-- Claim C1: For every byte sequence `b`, decoding the SLIP encoding of `b`
yields `b` again: `Decode (Encode b) = b` — in particular for the empty
sequence and for sequences holding the delimiter and escape bytes. -/
theorem decode_encode_roundtrip (b : List Nat) : Decode (Encode b) = b := by
  unfold Decode
  have hlen : ¬(Encode b).length < 2 := by
    unfold Encode
    simp
  rw [if_neg hlen, stripEnds_encode, unescape_body]

theorem scanFrame_end_true (rest : List Nat) :
    scanFrame (End :: rest) true = some ([End], rest) := by
  simp [scanFrame]

theorem scanFrame_end_false_some (rest f r : List Nat)
    (h : scanFrame rest false = some (f, r)) :
    scanFrame (End :: rest) false = some (End :: f, r) := by
  simp [scanFrame, h]

theorem scanFrame_end_false_none (rest : List Nat)
    (h : scanFrame rest false = none) :
    scanFrame (End :: rest) false = none := by
  simp [scanFrame, h]

theorem scanFrame_ne_some (b : Nat) (rest f r : List Nat) (inFrame : Bool)
    (hb : b ≠ End) (h : scanFrame rest true = some (f, r)) :
    scanFrame (b :: rest) inFrame = some (b :: f, r) := by
  simp [scanFrame, hb, h]

theorem scanFrame_ne_none (b : Nat) (rest : List Nat) (inFrame : Bool)
    (hb : b ≠ End) (h : scanFrame rest true = none) :
    scanFrame (b :: rest) inFrame = none := by
  simp [scanFrame, hb, h]

theorem scanFrame_true_spec (l : List Nat) :
    ∀ f r, scanFrame l true = some (f, r) →
      ∃ block, f = block ++ [End] ∧ (∀ x ∈ block, x ≠ End) ∧ l = f ++ r := by
  induction l with
  | nil => intro f r h; simp [scanFrame] at h
  | cons b rest ih =>
    intro f r h
    by_cases hb : b = End
    · subst hb
      rw [scanFrame_end_true] at h
      simp only [Option.some.injEq, Prod.mk.injEq] at h
      obtain ⟨hf, hr⟩ := h
      exact ⟨[], by simp [← hf], by simp, by simp [← hf, ← hr]⟩
    · cases hs : scanFrame rest true with
      | none => rw [scanFrame_ne_none b rest true hb hs] at h; exact absurd h (by simp)
      | some p =>
        obtain ⟨f1, r1⟩ := p
        rw [scanFrame_ne_some b rest f1 r1 true hb hs] at h
        simp only [Option.some.injEq, Prod.mk.injEq] at h
        obtain ⟨hf, hr⟩ := h
        obtain ⟨block, hb1, hb2, hb3⟩ := ih f1 r1 hs
        refine ⟨b :: block, ?_, ?_, ?_⟩
        · simp [← hf, hb1]
        · intro x hx
          rcases List.mem_cons.mp hx with h1 | h1
          · exact h1 ▸ hb
          · exact hb2 x h1
        · rw [← hf, ← hr, hb3]
          simp

theorem scanFrame_false_spec (l : List Nat) :
    ∀ f r, scanFrame l false = some (f, r) →
      ∃ k block, f = List.replicate k End ++ (block ++ [End]) ∧ block ≠ [] ∧
        (∀ x ∈ block, x ≠ End) ∧ l = f ++ r := by
  induction l with
  | nil => intro f r h; simp [scanFrame] at h
  | cons b rest ih =>
    intro f r h
    by_cases hb : b = End
    · subst hb
      cases hs : scanFrame rest false with
      | none => rw [scanFrame_end_false_none rest hs] at h; exact absurd h (by simp)
      | some p =>
        obtain ⟨f1, r1⟩ := p
        rw [scanFrame_end_false_some rest f1 r1 hs] at h
        simp only [Option.some.injEq, Prod.mk.injEq] at h
        obtain ⟨hf, hr⟩ := h
        obtain ⟨k, block, h1, h2, h3, h4⟩ := ih f1 r1 hs
        refine ⟨k + 1, block, ?_, h2, h3, ?_⟩
        · rw [← hf, h1, List.replicate_succ]
          simp
        · rw [← hf, ← hr, h4]
          simp
    · cases hs : scanFrame rest true with
      | none => rw [scanFrame_ne_none b rest false hb hs] at h; exact absurd h (by simp)
      | some p =>
        obtain ⟨f1, r1⟩ := p
        rw [scanFrame_ne_some b rest f1 r1 false hb hs] at h
        simp only [Option.some.injEq, Prod.mk.injEq] at h
        obtain ⟨hf, hr⟩ := h
        obtain ⟨block, h1, h2, h3⟩ := scanFrame_true_spec rest f1 r1 hs
        refine ⟨0, b :: block, ?_, by simp, ?_, ?_⟩
        · simp [← hf, h1]
        · intro x hx
          rcases List.mem_cons.mp hx with h4 | h4
          · exact h4 ▸ hb
          · exact h2 x h4
        · rw [← hf, ← hr, h3]
          simp

theorem ReadFrame_end_some (rest f r : List Nat)
    (h : scanFrame rest false = some (f, r)) :
    ReadFrame (End :: rest) = (some (End :: f), r) := by
  simp [ReadFrame, h]

theorem ReadFrame_end_none (rest : List Nat) (h : scanFrame rest false = none) :
    ReadFrame (End :: rest) = (none, End :: rest) := by
  simp [ReadFrame, h]

theorem ReadFrame_ne_some (b : Nat) (rest f r : List Nat)
    (hb : b ≠ End) (h : ReadFrame rest = (some f, r)) :
    ReadFrame (b :: rest) = (some f, r) := by
  simp [ReadFrame, hb, h]

theorem ReadFrame_ne_none (b : Nat) (rest rr : List Nat)
    (hb : b ≠ End) (h : ReadFrame rest = (none, rr)) :
    ReadFrame (b :: rest) = (none, b :: rest) := by
  simp [ReadFrame, hb, h]

theorem ReadFrame_some_spec (data : List Nat) :
    ∀ f r, ReadFrame data = (some f, r) →
      ∃ pre k block, data = pre ++ f ++ r ∧ (∀ x ∈ pre, x ≠ End) ∧
        f = End :: (List.replicate k End ++ (block ++ [End])) ∧ block ≠ [] ∧
        (∀ x ∈ block, x ≠ End) := by
  induction data with
  | nil => intro f r h; simp [ReadFrame] at h
  | cons b rest ih =>
    intro f r h
    by_cases hb : b = End
    · subst hb
      cases hs : scanFrame rest false with
      | none =>
        rw [ReadFrame_end_none rest hs] at h
        exact absurd h (by simp)
      | some p =>
        obtain ⟨f1, r1⟩ := p
        rw [ReadFrame_end_some rest f1 r1 hs] at h
        simp only [Prod.mk.injEq, Option.some.injEq] at h
        obtain ⟨hf, hr⟩ := h
        obtain ⟨k, block, h1, h2, h3, h4⟩ := scanFrame_false_spec rest f1 r1 hs
        refine ⟨[], k, block, ?_, by simp, ?_, h2, h3⟩
        · rw [← hf, ← hr, h4]
          simp
        · rw [← hf, h1]
    · cases hrf : ReadFrame rest with
      | mk o rr =>
        cases o with
        | some f1 =>
          rw [ReadFrame_ne_some b rest f1 rr hb hrf] at h
          simp only [Prod.mk.injEq, Option.some.injEq] at h
          obtain ⟨hf, hr⟩ := h
          obtain ⟨pre, k, block, h1, h2, h3, h4, h5⟩ := ih f1 rr hrf
          refine ⟨b :: pre, k, block, ?_, ?_, hf ▸ h3, h4, h5⟩
          · rw [← hf, ← hr, h1]
            simp
          · intro x hx
            rcases List.mem_cons.mp hx with h6 | h6
            · exact h6 ▸ hb
            · exact h2 x h6
        | none =>
          rw [ReadFrame_ne_none b rest rr hb hrf] at h
          exact absurd h (by simp)

theorem ReadFrame_none_unchanged (data : List Nat) :
    (ReadFrame data).1 = none → (ReadFrame data).2 = data := by
  cases data with
  | nil => intro _; rfl
  | cons b rest =>
    intro h
    by_cases hb : b = End
    · subst hb
      cases hs : scanFrame rest false with
      | none => rw [ReadFrame_end_none rest hs]
      | some p =>
        obtain ⟨f, r⟩ := p
        rw [ReadFrame_end_some rest f r hs] at h
        simp at h
    · cases hrf : ReadFrame rest with
      | mk o rr =>
        cases o with
        | some f =>
          rw [ReadFrame_ne_some b rest f rr hb hrf] at h
          simp at h
        | none => rw [ReadFrame_ne_none b rest rr hb hrf]

theorem scanFrame_no_end_append (xs : List Nat) (h : ∀ x ∈ xs, x ≠ End) :
    scanFrame (xs ++ [End]) true = some (xs ++ [End], []) := by
  induction xs with
  | nil => simp [scanFrame]
  | cons x rest ih =>
    have hx : x ≠ End := h x (List.mem_cons_self x rest)
    have hrest : ∀ y ∈ rest, y ≠ End := fun y hy => h y (List.mem_cons_of_mem x hy)
    rw [List.cons_append, scanFrame_ne_some x (rest ++ [End]) (rest ++ [End]) [] true hx (ih hrest)]

/-- A frame produced by `Encode` from a nonempty payload is extracted
whole by `ReadFrame`, with empty remainder. -/
theorem ReadFrame_encode (data : List Nat) (h : data ≠ []) :
    ReadFrame (Encode data) = (some (Encode data), []) := by
  unfold Encode
  cases hbody : data.flatMap escByte with
  | nil =>
    exfalso
    cases data with
    | nil => exact h rfl
    | cons b rest =>
      rw [List.flatMap_cons] at hbody
      exact escByte_ne_nil b (List.append_eq_nil.mp hbody).1
  | cons x xs =>
    have hmem : ∀ y ∈ x :: xs, y ≠ End := by
      intro y hy hEnd
      exact end_not_mem_body data (hEnd ▸ (hbody ▸ hy))
    have hx : x ≠ End := hmem x (List.mem_cons_self x xs)
    have hxs : ∀ y ∈ xs, y ≠ End := fun y hy => hmem y (List.mem_cons_of_mem x hy)
    have hscan : scanFrame ((x :: xs) ++ [End]) false = some (x :: (xs ++ [End]), []) := by
      rw [List.cons_append]
      exact scanFrame_ne_some x (xs ++ [End]) (xs ++ [End]) [] false hx
        (scanFrame_no_end_append xs hxs)
    rw [List.cons_append]
    rw [ReadFrame_end_some ((x :: xs) ++ [End]) (x :: (xs ++ [End])) [] (by simpa using hscan)]
    simp

end slip
namespace slip

theorem scanFrame_no_end_tail (xs r : List Nat) (h : ∀ x ∈ xs, x ≠ End) :
    scanFrame (xs ++ (End :: r)) true = some (xs ++ [End], r) := by
  induction xs with
  | nil => simpa using scanFrame_end_true r
  | cons x rest ih =>
    have hx : x ≠ End := h x (List.mem_cons_self x rest)
    have hrest : ∀ y ∈ rest, y ≠ End := fun y hy => h y (List.mem_cons_of_mem x hy)
    rw [List.cons_append]
    rw [scanFrame_ne_some x (rest ++ (End :: r)) (rest ++ [End]) r true hx (ih hrest)]
    simp

theorem scanFrame_replicate (k : Nat) (l f r : List Nat)
    (h : scanFrame l false = some (f, r)) :
    scanFrame (List.replicate k End ++ l) false = some (List.replicate k End ++ f, r) := by
  induction k with
  | zero => simpa using h
  | succ n ih =>
    rw [List.replicate_succ, List.cons_append, scanFrame_end_false_some _ _ _ ih]
    simp

/-- Completeness of `ReadFrame`: a buffer made of END-free garbage, a
well-formed frame, and a tail yields exactly that frame and tail. -/
theorem ReadFrame_decomp (pre block r : List Nat) (k : Nat)
    (hpre : ∀ x ∈ pre, x ≠ End) (hblock : block ≠ []) (hbe : ∀ x ∈ block, x ≠ End) :
    ReadFrame (pre ++ (End :: (List.replicate k End ++ (block ++ [End]))) ++ r) =
      (some (End :: (List.replicate k End ++ (block ++ [End]))), r) := by
  induction pre with
  | nil =>
    obtain ⟨x, xs, rfl⟩ : ∃ x xs, block = x :: xs := by
      cases block with
      | nil => exact absurd rfl hblock
      | cons x xs => exact ⟨x, xs, rfl⟩
    have hx : x ≠ End := hbe x (List.mem_cons_self x xs)
    have hxs : ∀ y ∈ xs, y ≠ End := fun y hy => hbe y (List.mem_cons_of_mem x hy)
    have hscan1 : scanFrame (x :: (xs ++ (End :: r))) false = some (x :: (xs ++ [End]), r) :=
      scanFrame_ne_some x (xs ++ (End :: r)) (xs ++ [End]) r false hx
        (scanFrame_no_end_tail xs r hxs)
    have hscan : scanFrame (List.replicate k End ++ (x :: (xs ++ (End :: r)))) false =
        some (List.replicate k End ++ (x :: (xs ++ [End])), r) :=
      scanFrame_replicate k _ _ r hscan1
    have harr : ([] ++ (End :: (List.replicate k End ++ ((x :: xs) ++ [End]))) ++ r) =
        End :: (List.replicate k End ++ (x :: (xs ++ (End :: r)))) := by
      simp
    rw [harr, ReadFrame_end_some _ _ _ hscan]
    simp
  | cons b pre ih =>
    have hb : b ≠ End := hpre b (List.mem_cons_self b pre)
    have hpre2 : ∀ x ∈ pre, x ≠ End := fun y hy => hpre y (List.mem_cons_of_mem b hy)
    rw [List.cons_append, List.cons_append]
    exact ReadFrame_ne_some b _ _ r hb (ih hpre2)

end slip

namespace protocol

theorem foldl_xor_eq (a : Nat) (l : List Nat) :
    l.foldl (fun acc b => acc ^^^ b) a = a ^^^ l.foldr (fun b acc => b ^^^ acc) 0 := by
  induction l generalizing a with
  | nil => simp
  | cons x rest ih =>
    rw [List.foldl_cons, List.foldr_cons, ih (a ^^^ x), Nat.xor_assoc]

theorem foldl_xor_lt (l : List Nat) (a : Nat) (ha : a < 256) (h : ∀ b ∈ l, b < 256) :
    l.foldl (fun acc b => acc ^^^ b) a < 256 := by
  induction l generalizing a with
  | nil => simpa using ha
  | cons x rest ih =>
    rw [List.foldl_cons]
    refine ih (a ^^^ x) ?_ (fun b hb => h b (List.mem_cons_of_mem x hb))
    have hx : x < 256 := h x (List.mem_cons_self x rest)
    have ha8 : a < 2 ^ 8 := by omega
    have hx8 : x < 2 ^ 8 := by omega
    have hlt := Nat.xor_lt_two_pow ha8 hx8
    omega

end protocol

namespace flasher

theorem chunks_flatten (len : Nat) : ∀ c : List Nat, c.length = len →
    ((List.range ((c.length + 1023) / 1024)).map
      (fun s => (c.drop (s * 1024)).take 1024)).flatten = c := by
  induction len using Nat.strong_induction_on with
  | _ len ih =>
    intro c hc
    by_cases h0 : c.length = 0
    · have hn : (c.length + 1023) / 1024 = 0 := by omega
      rw [hn]
      simp [List.length_eq_zero.mp h0]
    · have hpos : 0 < c.length := Nat.pos_of_ne_zero h0
      have hn : (c.length + 1023) / 1024 = ((c.drop 1024).length + 1023) / 1024 + 1 := by
        simp only [List.length_drop]
        omega
      rw [hn, List.range_succ_eq_map, List.map_cons, List.map_map, List.flatten_cons]
      have hchunk : ∀ s, ((fun s => (c.drop (s * 1024)).take 1024) ∘ Nat.succ) s =
          ((c.drop 1024).drop (s * 1024)).take 1024 := by
        intro s
        simp only [Function.comp_apply, List.drop_drop]
        congr 2
        rw [Nat.succ_mul]
        omega
      rw [List.map_congr_left (fun s _ => hchunk s)]
      have hrec := ih (c.drop 1024).length
        (by rw [List.length_drop, ← hc]; omega) (c.drop 1024) rfl
      rw [hrec]
      simp [List.take_append_drop]

theorem deflDataBlocks_get (c : List Nat) (s : Nat)
    (hs : s < protocol.CalculateDeflBlocks c.length protocol.FlashBlockSize) :
    (deflDataBlocks c).get? s = some (protocol.FlashDeflDataData
      ((c.drop (s * protocol.FlashBlockSize)).take protocol.FlashBlockSize) s) := by
  unfold deflDataBlocks
  rw [List.get?_map, List.get?_range hs]
  rfl

end flasher

/-- Claim C3: `ReadFrame` returns the slice from the first END delimiter
through the first subsequent END that follows at least one non-delimiter
byte, both delimiters included, together with the tail after it (sound
and complete: every such well-formed decomposition is extracted exactly);
when no closing delimiter exists it returns no frame and the buffer
unchanged; repeated extraction on `[END,1,2,END,END,3,4,END]` yields
`[END,1,2,END]` then `[END,3,4,END]` with empty tail. -/
theorem read_frame_extraction :
    (∀ data f r, slip.ReadFrame data = (some f, r) →
      ∃ pre k block, data = pre ++ f ++ r ∧ (∀ x ∈ pre, x ≠ slip.End) ∧
        f = slip.End :: (List.replicate k slip.End ++ (block ++ [slip.End])) ∧
        block ≠ [] ∧ (∀ x ∈ block, x ≠ slip.End)) ∧
    (∀ pre block r k, (∀ x ∈ pre, x ≠ slip.End) → block ≠ [] →
      (∀ x ∈ block, x ≠ slip.End) →
      slip.ReadFrame (pre ++ (slip.End :: (List.replicate k slip.End ++
          (block ++ [slip.End]))) ++ r) =
        (some (slip.End :: (List.replicate k slip.End ++ (block ++ [slip.End]))), r)) ∧
    (∀ data, (slip.ReadFrame data).1 = none → (slip.ReadFrame data).2 = data) ∧
    slip.ReadFrame [slip.End, 1, 2, slip.End, slip.End, 3, 4, slip.End] =
      (some [slip.End, 1, 2, slip.End], [slip.End, 3, 4, slip.End]) ∧
    slip.ReadFrame [slip.End, 3, 4, slip.End] = (some [slip.End, 3, 4, slip.End], []) :=
  ⟨fun data => slip.ReadFrame_some_spec data,
   fun pre block r k hpre hb hbe => slip.ReadFrame_decomp pre block r k hpre hb hbe,
   fun data => slip.ReadFrame_none_unchanged data,
   by decide, by decide⟩

/-- Witness for claim C3 at a concrete buffer: garbage byte, coalesced
extra leading delimiter, frame body `[7]`, tail `[8]`. -/
theorem read_frame_extraction_witness :
    slip.ReadFrame [9, slip.End, slip.End, 7, slip.End, 8] =
      (some [slip.End, slip.End, 7, slip.End], [8]) := by
  have h := read_frame_extraction.2.1 [9] [7] [8] 1
    (by decide) (by decide) (by decide)
  simpa using h

/-- Claim C9 counterexample: the empty payload encodes to `[END, END]`,
which the streaming frame extractor does NOT extract (it returns no
frame), so an encoded frame is not always extracted whole. -/
theorem encode_empty_frame_not_extracted :
    slip.Encode [] = [slip.End, slip.End] ∧
    slip.ReadFrame (slip.Encode []) = (none, [slip.End, slip.End]) := by
  constructor <;> rfl

/-- Claim C9 (amended): for every payload the encoded frame holds the
delimiter byte only as its first and last byte, and for every NONEMPTY
payload the streaming frame extractor extracts the encoded frame whole
with empty remainder. -/
theorem encode_interior_no_delimiter :
    (∀ data, ∃ body, slip.Encode data = slip.End :: body ++ [slip.End] ∧
      ∀ x ∈ body, x ≠ slip.End) ∧
    (∀ data, data ≠ [] → slip.ReadFrame (slip.Encode data) = (some (slip.Encode data), [])) :=
  ⟨fun data => ⟨data.flatMap slip.escByte, rfl,
     fun x hx hEnd => slip.end_not_mem_body data (hEnd ▸ hx)⟩,
   fun data h => slip.ReadFrame_encode data h⟩

/-- Witness for claim C9 (amended) at the one-byte payload `[1]`. -/
theorem encode_interior_no_delimiter_witness :
    slip.ReadFrame (slip.Encode [1]) = (some (slip.Encode [1]), []) :=
  encode_interior_no_delimiter.2 [1] (by decide)

/-- Claim C8: after stripping the END runs at both ends, `Decode` maps
ESC-0xDC to END, ESC-0xDD to ESC, ESC followed by any other byte to that
byte verbatim (advancing two in each case), copies every other byte
unchanged, and `Decode [END, ESC, 0xFF, 0x03, END] = [0xFF, 0x03]`. -/
theorem decode_escape_cases :
    (∀ frame, 2 ≤ frame.length →
      slip.Decode frame = slip.unescape (slip.stripEnds frame)) ∧
    (∀ rest, slip.unescape (slip.Esc :: slip.EscEnd :: rest) =
      slip.End :: slip.unescape rest) ∧
    (∀ rest, slip.unescape (slip.Esc :: slip.EscEsc :: rest) =
      slip.Esc :: slip.unescape rest) ∧
    (∀ x rest, x ≠ slip.EscEnd → x ≠ slip.EscEsc →
      slip.unescape (slip.Esc :: x :: rest) = x :: slip.unescape rest) ∧
    (∀ x rest, x ≠ slip.Esc → slip.unescape (x :: rest) = x :: slip.unescape rest) ∧
    slip.Decode [slip.End, slip.Esc, 0xFF, 0x03, slip.End] = [0xFF, 0x03] := by
  refine ⟨?_, ?_, ?_, ?_, ?_, by decide⟩
  · intro frame h2
    unfold slip.Decode
    rw [if_neg (by omega)]
  · intro rest
    simp [slip.unescape, slip.Esc, slip.EscEnd]
  · intro rest
    simp [slip.unescape, slip.Esc, slip.EscEnd, slip.EscEsc]
  · intro x rest hx1 hx2
    simp only [slip.EscEnd] at hx1
    simp only [slip.EscEsc] at hx2
    simp [slip.unescape, slip.Esc, slip.EscEnd, slip.EscEsc, hx1, hx2]
  · intro x rest hx
    cases rest with
    | nil => simp [slip.unescape]
    | cons y r => simp [slip.unescape, hx]

/-- Witness for claim C8: the unknown-escape clause at `ESC 0xFF` and the
concrete decode from the claim. -/
theorem decode_escape_cases_witness :
    slip.unescape [slip.Esc, 0xFF, 0x03] = [0xFF, 0x03] ∧
    slip.Decode [slip.End, slip.Esc, 0xFF, 0x03, slip.End] = [0xFF, 0x03] :=
  ⟨decode_escape_cases.2.2.2.1 0xFF [0x03] (by decide) (by decide),
   decode_escape_cases.2.2.2.2.2⟩

/-- Claim C10: the two duplicated erase-size implementations agree on
every non-negative length: the `(n + sector - 1) / sector * sector`
rounding of `packet.go` equals the count-sectors-and-increment rounding
of `esp32c3.go`. -/
theorem erase_size_impls_agree (n : Nat) :
    protocol.CalculateEraseSize n = protocol.esp32c3.CalculateEraseSize n := by
  unfold protocol.CalculateEraseSize protocol.esp32c3.CalculateEraseSize
    protocol.FlashSectorSize
  have hdiv : (n + 4096 - 1) / 4096 = if n % 4096 ≠ 0 then n / 4096 + 1 else n / 4096 := by
    split <;> omega
  rw [hdiv]

/-- Claim C6: the request checksum is the XOR of 0xEF with every payload
byte (an 8-bit value when the payload is made of bytes), and on the
concrete payloads `[]`, `[0x01]`, `[0x01,0x02,0x03]` it is `0xEF`,
`0xEE`, `0xEF` respectively. -/
theorem request_checksum_spec :
    (∀ cmd data, (protocol.NewRequest cmd data).checksum =
      0xEF ^^^ data.foldr (fun b acc => b ^^^ acc) 0) ∧
    (∀ data, (∀ b ∈ data, b < 256) → protocol.calculateChecksum data < 256) ∧
    protocol.calculateChecksum [] = 0xEF ∧
    protocol.calculateChecksum [0x01] = 0xEE ∧
    protocol.calculateChecksum [0x01, 0x02, 0x03] = 0xEF :=
  ⟨fun _ data => protocol.foldl_xor_eq 0xEF data,
   fun data h => protocol.foldl_xor_lt data 0xEF (by omega) h,
   by decide, by decide, by decide⟩

/-- Witness for claim C6: the 8-bit bound discharged at `[1, 2, 3]` and
the fold identity at an arbitrary concrete request. -/
theorem request_checksum_spec_witness :
    protocol.calculateChecksum [1, 2, 3] < 256 ∧
    (protocol.NewRequest 8 [1]).checksum = 0xEF ^^^ [1].foldr (fun b acc => b ^^^ acc) 0 :=
  ⟨request_checksum_spec.2.1 [1, 2, 3] (by decide),
   request_checksum_spec.1 8 [1]⟩

/-- Claim C5 counterexample: a complete frame whose decoded contents are
2 bytes — a *too short* decode error by the parser — is silently dropped
by the response-reader step instead of surfacing that parser error. -/
theorem short_frame_error_not_surfaced :
    flasher.processBuffer [slip.End, 1, 2, slip.End] = (none, []) ∧
    protocol.DecodeResponse (slip.Decode [slip.End, 1, 2, slip.End]) =
      Except.error (protocol.DecodeErr.tooShort 2) := by
  constructor <;> rfl

/-- Claim C5 (amended): when the response reader extracts a complete
frame whose decoded contents have at least 10 bytes, the verdict of the
parser — including the wrong-direction and size-mismatch errors — is
surfaced to the caller; a frame decoding to fewer than 10 bytes is
dropped and the reader keeps waiting. -/
theorem parser_errors_surfaced (buffer frame remaining : List Nat)
    (h : slip.ReadFrame buffer = (some frame, remaining)) :
    (10 ≤ (slip.Decode frame).length →
      flasher.processBuffer buffer =
        (some (protocol.DecodeResponse (slip.Decode frame)), remaining)) ∧
    ((slip.Decode frame).length < 10 →
      flasher.processBuffer buffer = (none, remaining)) := by
  unfold flasher.processBuffer
  rw [h]
  constructor
  · intro h10
    simp [h10]
  · intro h10
    have hn : ¬ 10 ≤ (slip.Decode frame).length := by omega
    simp [hn]

/-- Witness for claim C5 (amended): a 10-byte frame with a wrong
direction byte is surfaced as the parser's verdict. -/
theorem parser_errors_surfaced_witness :
    flasher.processBuffer [slip.End, 5, 1, 0, 0, 0, 0, 0, 0, 0, 9, slip.End] =
      (some (protocol.DecodeResponse
        (slip.Decode [slip.End, 5, 1, 0, 0, 0, 0, 0, 0, 0, 9, slip.End])), []) :=
  (parser_errors_surfaced [slip.End, 5, 1, 0, 0, 0, 0, 0, 0, 0, 9, slip.End]
    [slip.End, 5, 1, 0, 0, 0, 0, 0, 0, 0, 9, slip.End] [] (by decide)).1 (by decide)

/-- Claim C7: the serialized request for any opcode and payload is
`8 + N` bytes: byte 0 is 0x00, byte 1 the opcode, bytes 2..4 the
little-endian unsigned 16-bit payload length, bytes 4..8 the
little-endian 32-bit checksum, and the remaining bytes the payload. -/
theorem request_encode_layout (cmd : Nat) (data : List Nat) :
    (protocol.NewRequest cmd data).encode.length = 8 + data.length ∧
    (protocol.NewRequest cmd data).encode.getD 0 1 = 0x00 ∧
    (protocol.NewRequest cmd data).encode.getD 1 0 = cmd ∧
    protocol.u16le ((protocol.NewRequest cmd data).encode.getD 2 0)
        ((protocol.NewRequest cmd data).encode.getD 3 0) = data.length % 2 ^ 16 ∧
    protocol.u32le ((protocol.NewRequest cmd data).encode.getD 4 0)
        ((protocol.NewRequest cmd data).encode.getD 5 0)
        ((protocol.NewRequest cmd data).encode.getD 6 0)
        ((protocol.NewRequest cmd data).encode.getD 7 0)
      = (protocol.NewRequest cmd data).checksum % 2 ^ 32 ∧
    (protocol.NewRequest cmd data).encode.drop 8 = data := by
  unfold protocol.NewRequest protocol.Request.encode protocol.u16leBytes protocol.u32leBytes
  refine ⟨?_, ?_, ?_, ?_, ?_, ?_⟩
  · simp
    omega
  · rfl
  · rfl
  · show protocol.u16le (data.length % 256) (data.length / 256 % 256) = data.length % 2 ^ 16
    unfold protocol.u16le
    omega
  · show protocol.u32le (protocol.calculateChecksum data % 256)
        (protocol.calculateChecksum data / 256 % 256)
        (protocol.calculateChecksum data / 65536 % 256)
        (protocol.calculateChecksum data / 16777216 % 256)
      = protocol.calculateChecksum data % 2 ^ 32
    unfold protocol.u32le
    omega
  · rfl

/-- Claim C4 counterexample: at a stream of 2^42 bytes the uint32 cast
in the block-count helper wraps to zero, so the block loop sends no
FLASH_DEFL_DATA packet at all, although `⌈L/1024⌉ = 2^32`; the claimed
packet count fails at that length. -/
theorem flash_defl_block_count_wraps :
    0 < (List.replicate 4398046511104 (0 : Nat)).length ∧
    ((List.replicate 4398046511104 (0 : Nat)).length + 1023) / 1024 = 4294967296 ∧
    (flasher.deflDataBlocks (List.replicate 4398046511104 (0 : Nat))).length = 0 := by
  refine ⟨?_, ?_, ?_⟩
  · rw [List.length_replicate]
    omega
  · rw [List.length_replicate]
  · unfold flasher.deflDataBlocks
    rw [List.length_map, List.length_range, List.length_replicate]
    unfold protocol.CalculateDeflBlocks protocol.FlashBlockSize
    omega

/-- Claim C4 (amended): for a nonempty compressed stream whose
`⌈L/1024⌉` block count fits in a uint32 (the Go cast wraps otherwise)
the block loop produces exactly `⌈L/1024⌉` FLASH_DEFL_DATA payloads in
sequence order; the payload for sequence `s` is the 16-byte header
{len(block), s, 0, 0} (little-endian uint32 each) followed by exactly
the s-th 1024-byte slice of the stream; the slices concatenate back to
the whole stream and the final slice keeps its short length, unpadded. -/
theorem flash_defl_block_stream (c : List Nat) (h : 0 < c.length)
    (hsmall : (c.length + 1023) / 1024 < 2 ^ 32) :
    (flasher.deflDataBlocks c).length =
      protocol.CalculateDeflBlocks c.length protocol.FlashBlockSize ∧
    protocol.CalculateDeflBlocks c.length protocol.FlashBlockSize =
      (c.length + 1023) / 1024 ∧
    (∀ s, s < protocol.CalculateDeflBlocks c.length protocol.FlashBlockSize →
      (flasher.deflDataBlocks c).get? s =
        some (protocol.u32leBytes ((c.drop (s * 1024)).take 1024).length ++
          protocol.u32leBytes s ++ protocol.u32leBytes 0 ++ protocol.u32leBytes 0 ++
          (c.drop (s * 1024)).take 1024)) ∧
    ((List.range (protocol.CalculateDeflBlocks c.length protocol.FlashBlockSize)).map
      (fun s => (c.drop (s * 1024)).take 1024)).flatten = c ∧
    ((c.drop ((protocol.CalculateDeflBlocks c.length protocol.FlashBlockSize - 1)
        * 1024)).take 1024).length =
      c.length - (protocol.CalculateDeflBlocks c.length protocol.FlashBlockSize - 1) * 1024 := by
  have hceil : protocol.CalculateDeflBlocks c.length protocol.FlashBlockSize =
      (c.length + 1023) / 1024 := by
    unfold protocol.CalculateDeflBlocks protocol.FlashBlockSize
    omega
  refine ⟨?_, hceil, ?_, ?_, ?_⟩
  · unfold flasher.deflDataBlocks
    simp
  · intro s hs
    have hg := flasher.deflDataBlocks_get c s hs
    rw [hg]
    rfl
  · rw [hceil]
    exact flasher.chunks_flatten c.length c rfl
  · rw [hceil]
    simp only [List.length_take, List.length_drop]
    omega

/-- Witness for claim C4 (amended) at the one-byte stream `[7]`: a
single block whose payload is the header {1, 0, 0, 0} followed by `[7]`. -/
theorem flash_defl_block_stream_witness :
    (flasher.deflDataBlocks [7]).length =
      protocol.CalculateDeflBlocks 1 protocol.FlashBlockSize ∧
    (flasher.deflDataBlocks [7]).get? 0 =
      some (protocol.u32leBytes 1 ++ protocol.u32leBytes 0 ++ protocol.u32leBytes 0 ++
        protocol.u32leBytes 0 ++ [7]) := by
  have h := flash_defl_block_stream [7] (by decide) (by decide)
  exact ⟨h.1, h.2.2.1 0 (by decide)⟩

/-- Claim C2: `DecodeResponse` succeeds exactly when the input has at
least 10 bytes, byte 0 is the response direction byte, and the declared
little-endian payload length at offset 2 fits in the bytes after offset
8; on success, a declared length ≥ 2 puts the last two declared payload
bytes into status and error with the rest of the payload as data, while
a declared length of 0 or 1 leaves status and error zero, satisfying
`IsSuccess`. -/
theorem decode_response_spec (data : List Nat) :
    ((protocol.DecodeResponse data).isOk = true ↔
      (10 ≤ data.length ∧ data.getD 0 0 = protocol.DirResponse ∧
        protocol.u16le (data.getD 2 0) (data.getD 3 0) ≤ data.length - 8)) ∧
    (∀ r, protocol.DecodeResponse data = Except.ok r →
      (2 ≤ protocol.u16le (data.getD 2 0) (data.getD 3 0) →
        r.status = (data.drop 8).getD (protocol.u16le (data.getD 2 0) (data.getD 3 0) - 2) 0 ∧
        r.error = (data.drop 8).getD (protocol.u16le (data.getD 2 0) (data.getD 3 0) - 1) 0 ∧
        r.data = (data.drop 8).take (protocol.u16le (data.getD 2 0) (data.getD 3 0) - 2)) ∧
      (protocol.u16le (data.getD 2 0) (data.getD 3 0) < 2 →
        r.status = 0 ∧ r.error = 0 ∧ r.IsSuccess = true)) := by
  rcases data with _ | ⟨d0, _ | ⟨d1, _ | ⟨d2, _ | ⟨d3, _ | ⟨d4, _ | ⟨d5, _ | ⟨d6, _ |
    ⟨d7, rest⟩⟩⟩⟩⟩⟩⟩⟩
  · simp [protocol.DecodeResponse, Except.isOk, Except.toBool]
  · simp [protocol.DecodeResponse, Except.isOk, Except.toBool]
  · simp [protocol.DecodeResponse, Except.isOk, Except.toBool]
  · simp [protocol.DecodeResponse, Except.isOk, Except.toBool]
  · simp [protocol.DecodeResponse, Except.isOk, Except.toBool]
  · simp [protocol.DecodeResponse, Except.isOk, Except.toBool]
  · simp [protocol.DecodeResponse, Except.isOk, Except.toBool]
  · simp [protocol.DecodeResponse, Except.isOk, Except.toBool]
  · have hgd0 : (d0 :: d1 :: d2 :: d3 :: d4 :: d5 :: d6 :: d7 :: rest).getD 0 0 = d0 := rfl
    have hgd2 : (d0 :: d1 :: d2 :: d3 :: d4 :: d5 :: d6 :: d7 :: rest).getD 2 0 = d2 := rfl
    have hgd3 : (d0 :: d1 :: d2 :: d3 :: d4 :: d5 :: d6 :: d7 :: rest).getD 3 0 = d3 := rfl
    have hdrop : (d0 :: d1 :: d2 :: d3 :: d4 :: d5 :: d6 :: d7 :: rest).drop 8 = rest := rfl
    have hlen : (d0 :: d1 :: d2 :: d3 :: d4 :: d5 :: d6 :: d7 :: rest).length =
        rest.length + 8 := by simp
    rw [hgd0, hgd2, hgd3, hdrop, hlen]
    simp only [protocol.DecodeResponse]
    by_cases h1 : rest.length < 2
    · rw [if_pos h1]
      constructor
      · simp only [Except.isOk, Except.toBool, Bool.false_eq_true, false_iff]
        rintro ⟨ha, -, -⟩
        omega
      · intro r hr
        exact absurd hr (by simp)
    · rw [if_neg h1]
      by_cases h2 : d0 = protocol.DirResponse
      · rw [if_neg (not_not_intro h2)]
        by_cases h3 : rest.length < protocol.u16le d2 d3
        · rw [if_pos h3]
          constructor
          · simp only [Except.isOk, Except.toBool, Bool.false_eq_true, false_iff]
            rintro ⟨-, -, hc⟩
            omega
          · intro r hr
            exact absurd hr (by simp)
        · rw [if_neg h3]
          by_cases h4 : 2 ≤ protocol.u16le d2 d3
          · rw [if_pos h4]
            constructor
            · exact ⟨fun _ => ⟨by omega, h2, by omega⟩, fun _ => rfl⟩
            · intro r hr
              have hrr := Except.ok.inj hr
              rw [← hrr]
              exact ⟨fun _ => ⟨rfl, rfl, rfl⟩, fun hlt => absurd h4 (by omega)⟩
          · rw [if_neg h4]
            by_cases h5 : 0 < protocol.u16le d2 d3
            · rw [if_pos h5]
              constructor
              · exact ⟨fun _ => ⟨by omega, h2, by omega⟩, fun _ => rfl⟩
              · intro r hr
                have hrr := Except.ok.inj hr
                rw [← hrr]
                exact ⟨fun h2le => absurd h2le h4, fun _ => ⟨rfl, rfl, rfl⟩⟩
            · rw [if_neg h5]
              constructor
              · exact ⟨fun _ => ⟨by omega, h2, by omega⟩, fun _ => rfl⟩
              · intro r hr
                have hrr := Except.ok.inj hr
                rw [← hrr]
                exact ⟨fun h2le => absurd h2le h4, fun _ => ⟨rfl, rfl, rfl⟩⟩
      · rw [if_pos h2]
        constructor
        · simp only [Except.isOk, Except.toBool, Bool.false_eq_true, false_iff]
          rintro ⟨-, hb, -⟩
          exact h2 hb
        · intro r hr
          exact absurd hr (by simp)

/-- Witness for claim C2: a 10-byte response with declared payload
length 2 parses successfully. -/
theorem decode_response_spec_witness :
    (protocol.DecodeResponse [1, 8, 2, 0, 0, 0, 0, 0, 7, 9]).isOk = true :=
  (decode_response_spec [1, 8, 2, 0, 0, 0, 0, 0, 7, 9]).1.mpr (by decide)
